import Mathlib

/-!
Verification of the `js-kmp-matcher` repository: a Knuth-Morris-Pratt
substring matcher (`src/kmp.js`) exposing `KMP.makePartialMatchTable`,
`KMP.find` and `KMP.stringToChars`.

The JS code is shallowly embedded below.  Loops become fuel-driven step
functions over explicit state records; array accesses `xs[k]` become
`xs[k]?` on Lean lists (JS yields `undefined` out of bounds, the embedding
yields `none`), and the write `table[i] = v` becomes `List.set`.  The fuel
amounts used by `makePartialMatchTable` and `find` are proven sufficient,
so the embedded functions compute exactly what the JS loops compute.
-/

namespace KMP

variable {α : Type*} [DecidableEq α]

/-- State of the `while` loop in `KMP.makePartialMatchTable`:
the table built so far and the two cursors `i` and `j`. -/
structure BuildState where
  table : List Nat
  i : Nat
  j : Nat
deriving DecidableEq, Repr

/-- One iteration of the body of the `while (i < length)` loop of
`makePartialMatchTable` (`src/kmp.js` lines 92-111).  The comparison
`keywordChars[i] !== keywordChars[j]` is embedded as inequality of the
optional lookups; the self-referential read `table[j - 1]` is embedded
with default `0` (the in-bounds claim C10 shows the default is never
used). -/
def buildStep (p : List α) (s : BuildState) : BuildState :=
  if p[s.i]? ≠ p[s.j]? then
    if s.j = 0 then ⟨s.table.set s.i 0, s.i + 1, s.j⟩
    else ⟨s.table, s.i, (s.table[s.j - 1]?).getD 0⟩
  else ⟨s.table.set s.i (s.j + 1), s.i + 1, s.j + 1⟩

/-- Fuel-driven runner for the `makePartialMatchTable` loop: iterate
`buildStep` while `i < length`, at most `fuel` times. -/
def buildRun (p : List α) : Nat → BuildState → BuildState
  | 0, s => s
  | fuel + 1, s => if s.i < p.length then buildRun p fuel (buildStep p s) else s

/-- Initial loop state of `makePartialMatchTable`: `new Array(length)`
filled with `0`, `i = 1`, `j = 0`. -/
def buildInit (p : List α) : BuildState :=
  ⟨List.replicate p.length 0, 1, 0⟩

/-- `KMP.makePartialMatchTable` (`src/kmp.js` lines 41-114).  Fuel
`2 * p.length` is sufficient, as proven below. -/
def makePartialMatchTable (p : List α) : List Nat :=
  (buildRun p (2 * p.length) (buildInit p)).table

/-- State of the `while` loop in `KMP.find`: cursor `i` over the text and
cursor `j` over the keyword. -/
structure FindState where
  i : Nat
  j : Nat
deriving DecidableEq, Repr

/-- Fuel-driven runner for the scanning loop of `KMP.find`
(`src/kmp.js` lines 128-152), including the `break` taken when `j`
reaches the keyword length right after a successful comparison. -/
def findRun (t p : List α) (table : List Nat) : Nat → FindState → FindState
  | 0, s => s
  | fuel + 1, s =>
    if s.i < t.length then
      if t[s.i]? = p[s.j]? then
        if s.j + 1 = p.length then ⟨s.i + 1, s.j + 1⟩
        else findRun t p table fuel ⟨s.i + 1, s.j + 1⟩
      else if 0 < s.j then findRun t p table fuel ⟨s.i, (table[s.j - 1]?).getD 0⟩
      else findRun t p table fuel ⟨s.i + 1, s.j⟩
    else s

/-- The return expression of `KMP.find` (`src/kmp.js` line 154):
`(i === testLength) ? -1 : (i - keywordLength)`. -/
def findFinal (p : List α) (tLen : Nat) (s : FindState) : Int :=
  if s.i = tLen then -1 else (s.i : Int) - (p.length : Int)

/-- `KMP.find` on unit sequences (`src/kmp.js` lines 116-155): build the
partial-match table, run the scanner, and apply the return policy.  Fuel
`2 * t.length + 1` is sufficient, as proven below. -/
def find (t p : List α) : Int :=
  findFinal p t.length
    (findRun t p (makePartialMatchTable p) (2 * t.length + 1) ⟨0, 0⟩)

/-- `KMP.stringToChars` (`src/kmp.js` lines 157-163): `for (let c of str)`
iterates Unicode code points and pushes each onto an array.  A Lean
`String` is a list of Unicode scalar values, so the JS string iterator
corresponds to iterating `String.data`. -/
def stringToChars (s : String) : List Char :=
  s.data.foldl (fun acc c => acc ++ [c]) []

/-- `KMP.find` exactly as exposed in JS: on two strings, converting both
through `stringToChars` first. -/
def findStr (t p : String) : Int :=
  find (stringToChars t) (stringToChars p)

/-! ## Reference definitions (from the specification's words)

`BorderLen l n` states that the length-`n` prefix of `l` is a proper
prefix of `l` that is also a proper suffix of `l`; `lpsBrute` computes the
longest such length by brute force, exactly following the spec sentence
"`table[k]` = length of the longest proper prefix of `pattern[0..=k]`
that is also a proper suffix of `pattern[0..=k]`". -/

/-- `n` is the length of a proper prefix of `l` that is also a (proper)
suffix of `l`. -/
def BorderLen (l : List α) (n : Nat) : Prop :=
  n < l.length ∧ l.take n = l.drop (l.length - n)

instance (l : List α) (n : Nat) : Decidable (BorderLen l n) := by
  unfold BorderLen; infer_instance

/-- Brute-force longest proper prefix-suffix length: try every proper
length and keep the largest that works. -/
def lpsBrute (l : List α) : Nat :=
  ((List.range l.length).filter
    (fun n => decide (l.take n = l.drop (l.length - n)))).foldr max 0

/-- Brute-force substring search: the first index `r` (zero-based) such
that `p` occurs in `t` at `r`, or `-1` if none exists. -/
def naiveFind (t p : List α) : Int :=
  match (List.range (t.length + 1)).find? (fun r => p.isPrefixOf (t.drop r)) with
  | some r => (r : Int)
  | none => -1

/-- Number of UTF-16 code units needed for one Unicode code point. -/
def utf16Units (c : Char) : Nat :=
  if c.toNat < 0x10000 then 1 else 2

/-- Length of a string counted in UTF-16 code units (the unit JS exposes
through `.length` and raw index access). -/
def utf16Length (s : String) : Nat :=
  (s.data.map utf16Units).sum

/-! ## Bounds-checked embedding

The JS loops read `keywordChars[j]`, `testChars[i]` and `table[j - 1]`
without bounds checks; out of bounds, JS would yield `undefined` and the
loops would misbehave.  The following variants return `none` as soon as
any of those reads is out of bounds; claim C10 states that on non-empty
patterns they agree with the unchecked embedding, i.e. the out-of-bounds
branch is unreachable. -/

/-- `buildStep` with every sequence access bounds-checked. -/
def buildStepChecked (p : List α) (s : BuildState) : Option BuildState :=
  match p[s.i]?, p[s.j]? with
  | some a, some b =>
    if a ≠ b then
      if s.j = 0 then some ⟨s.table.set s.i 0, s.i + 1, s.j⟩
      else
        match s.table[s.j - 1]? with
        | some v => some ⟨s.table, s.i, v⟩
        | none => none
    else some ⟨s.table.set s.i (s.j + 1), s.i + 1, s.j + 1⟩
  | _, _ => none

/-- `buildRun` with every sequence access bounds-checked. -/
def buildRunChecked (p : List α) : Nat → BuildState → Option BuildState
  | 0, s => some s
  | fuel + 1, s =>
    if s.i < p.length then
      match buildStepChecked p s with
      | some s' => buildRunChecked p fuel s'
      | none => none
    else some s

/-- `makePartialMatchTable` with every sequence access bounds-checked. -/
def makePartialMatchTableChecked (p : List α) : Option (List Nat) :=
  (buildRunChecked p (2 * p.length) (buildInit p)).map BuildState.table

/-- `findRun` with every sequence access bounds-checked. -/
def findRunChecked (t p : List α) (table : List Nat) : Nat → FindState → Option FindState
  | 0, s => some s
  | fuel + 1, s =>
    if s.i < t.length then
      match t[s.i]?, p[s.j]? with
      | some a, some b =>
        if a = b then
          if s.j + 1 = p.length then some ⟨s.i + 1, s.j + 1⟩
          else findRunChecked t p table fuel ⟨s.i + 1, s.j + 1⟩
        else if 0 < s.j then
          match table[s.j - 1]? with
          | some v => findRunChecked t p table fuel ⟨s.i, v⟩
          | none => none
        else findRunChecked t p table fuel ⟨s.i + 1, s.j⟩
      | _, _ => none
    else some s

/-- `find` with every sequence access bounds-checked. -/
def findChecked (t p : List α) : Option Int :=
  match makePartialMatchTableChecked p with
  | none => none
  | some table =>
    match findRunChecked t p table (2 * t.length + 1) ⟨0, 0⟩ with
    | none => none
    | some s => some (findFinal p t.length s)

/-! ## Loop invariants (used by the theorems below) -/

/-- Invariant of the `while` loop of `makePartialMatchTable`: the table
has the pattern's length, the cursors satisfy `1 ≤ i ≤ length` and
`j < i`, every entry written so far (indices `< i`) is the true longest
proper prefix-suffix length, `j` is a border length of `p.take i`, and
every longer border of `p.take i` fails to extend with `p[i]`. -/
def BuildInv (p : List α) (s : BuildState) : Prop :=
  s.table.length = p.length ∧
  1 ≤ s.i ∧ s.i ≤ p.length ∧ s.j < s.i ∧
  (∀ k, k < s.i → (s.table[k]?).getD 0 = lpsBrute (p.take (k + 1))) ∧
  BorderLen (p.take s.i) s.j ∧
  (∀ m, s.j < m → BorderLen (p.take s.i) m → p[m]? ≠ p[s.i]?)

/-- Invariant of the scanner's loop: the cursors are in range, the last
`j` text units before `i` match `p.take j`, and no occurrence of `p`
starts before `i - j`. -/
def FindInv (t p : List α) (s : FindState) : Prop :=
  s.j ≤ s.i ∧ s.i ≤ t.length ∧ s.j < p.length ∧
  (∀ k, k < s.j → t[s.i - s.j + k]? = p[k]?) ∧
  (∀ r, r + s.j < s.i → ¬ p <+: t.drop r)

/-- What holds of the state in which the scanner's loop exits: the
invariant facts, plus the exit condition (text exhausted, or `j` reached
the keyword length through the `break`). -/
def FindExit (t p : List α) (s : FindState) : Prop :=
  s.j ≤ s.i ∧ s.i ≤ t.length ∧ s.j ≤ p.length ∧
  (∀ k, k < s.j → t[s.i - s.j + k]? = p[k]?) ∧
  (∀ r, r + s.j < s.i → ¬ p <+: t.drop r) ∧
  (t.length ≤ s.i ∨ s.j = p.length)

/-! ## Facts about `foldr max 0` -/

theorem le_foldr_max {L : List Nat} {x : Nat} (hx : x ∈ L) : x ≤ L.foldr max 0 := by
  induction L with
  | nil => cases hx
  | cons y ys ih =>
    rcases List.mem_cons.mp hx with h | h
    · subst h; exact Nat.le_max_left _ _
    · exact le_trans (ih h) (Nat.le_max_right _ _)

theorem foldr_max_mem (L : List Nat) : L.foldr max 0 ∈ L ∨ L.foldr max 0 = 0 := by
  induction L with
  | nil => exact Or.inr rfl
  | cons y ys ih =>
    rcases Nat.le_total y (ys.foldr max 0) with h | h
    · rw [List.foldr_cons, Nat.max_eq_right h]
      rcases ih with hm | hz
      · exact Or.inl (List.mem_cons_of_mem _ hm)
      · exact Or.inr hz
    · rw [List.foldr_cons, Nat.max_eq_left h]
      exact Or.inl (List.mem_cons_self _ _)

/-! ## Facts about `BorderLen` and `lpsBrute` -/

omit [DecidableEq α] in
theorem borderLen_zero {l : List α} (h : l ≠ []) : BorderLen l 0 := by
  refine ⟨List.length_pos.mpr h, ?_⟩
  simp [List.drop_length]

omit [DecidableEq α] in
theorem borderLen_lt {l : List α} {n : Nat} (h : BorderLen l n) : n < l.length := h.1

theorem mem_lps_filter_iff {l : List α} {n : Nat} :
    n ∈ (List.range l.length).filter
      (fun n => decide (l.take n = l.drop (l.length - n))) ↔ BorderLen l n := by
  rw [List.mem_filter, List.mem_range, decide_eq_true_iff]
  exact Iff.rfl

theorem le_lpsBrute {l : List α} {n : Nat} (h : BorderLen l n) : n ≤ lpsBrute l :=
  le_foldr_max (mem_lps_filter_iff.mpr h)

theorem lpsBrute_borderLen {l : List α} (h : l ≠ []) : BorderLen l (lpsBrute l) := by
  rcases foldr_max_mem ((List.range l.length).filter
      (fun n => decide (l.take n = l.drop (l.length - n)))) with hm | hz
  · exact mem_lps_filter_iff.mp hm
  · rw [lpsBrute, hz]; exact borderLen_zero h

theorem lpsBrute_lt_length {l : List α} (h : l ≠ []) : lpsBrute l < l.length :=
  borderLen_lt (lpsBrute_borderLen h)

theorem lpsBrute_eq_of {l : List α} {m : Nat} (hne : l ≠ []) (hb : BorderLen l m)
    (hmax : ∀ n, BorderLen l n → n ≤ m) : lpsBrute l = m :=
  le_antisymm (hmax _ (lpsBrute_borderLen hne)) (le_lpsBrute hb)

omit [DecidableEq α] in
/-- A border length is characterized by `l.take n` being a suffix of `l`. -/
theorem borderLen_iff_suffix {l : List α} {n : Nat} :
    BorderLen l n ↔ n < l.length ∧ l.take n <:+ l := by
  constructor
  · rintro ⟨hn, he⟩
    exact ⟨hn, he ▸ List.drop_suffix _ _⟩
  · rintro ⟨hn, u, hu⟩
    refine ⟨hn, ?_⟩
    have hlen : u.length = l.length - n := by
      have := congrArg List.length hu
      simp only [List.length_append, List.length_take] at this
      omega
    rw [← hlen]
    calc List.take n l = List.drop u.length (u ++ List.take n l) :=
          (List.drop_left _ _).symm
    _ = List.drop u.length l := by rw [hu]

omit [DecidableEq α] in
/-- Extending a border by one unit: `n + 1` is a border length of
`l ++ [c]` exactly when `n` is a border length of `l` whose next unit in
`l` is `c`. -/
theorem borderLen_append_singleton {l : List α} {c : α} {n : Nat} :
    BorderLen (l ++ [c]) (n + 1) ↔ BorderLen l n ∧ l[n]? = some c := by
  have hlc : (l ++ [c]).length = l.length + 1 := by simp
  constructor
  · rintro ⟨hn, he⟩
    rw [hlc] at hn he
    have hnl : n < l.length := by omega
    have ha : l[n]? = some l[n] := List.getElem?_eq_getElem hnl
    rw [List.take_append_of_le_length (by omega),
        show l.length + 1 - (n + 1) = l.length - n from by omega,
        List.drop_append_of_le_length (by omega), List.take_succ, ha] at he
    simp only [Option.toList_some] at he
    have hlen : (l.take n).length = (l.drop (l.length - n)).length := by
      simp only [List.length_take, List.length_drop]; omega
    have hinj := List.append_inj he (by simpa using hlen)
    refine ⟨⟨hnl, hinj.1⟩, ?_⟩
    rw [ha, Option.some_inj]
    have h2 := hinj.2
    injection h2
  · rintro ⟨⟨hnl, he⟩, hc⟩
    refine ⟨by rw [hlc]; omega, ?_⟩
    rw [hlc, List.take_append_of_le_length (by omega),
        show l.length + 1 - (n + 1) = l.length - n from by omega,
        List.drop_append_of_le_length (by omega), List.take_succ, hc, ← he]
    simp

omit [DecidableEq α] in
/-- A border of the length-`n` prefix of `l` is a border of `l` whenever
`n` itself is a border length of `l`. -/
theorem borderLen_of_borderLen_take {l : List α} {n m : Nat} (hn : BorderLen l n)
    (hm : BorderLen (l.take n) m) : BorderLen l m := by
  have hnl : n < l.length := hn.1
  have hlen : (l.take n).length = n := by simp [List.length_take]; omega
  have hml : m < n := hlen ▸ hm.1
  have hsuf₁ : (l.take n).take m <:+ l.take n := (borderLen_iff_suffix.mp hm).2
  have hsuf₂ : l.take n <:+ l := (borderLen_iff_suffix.mp hn).2
  have htt : (l.take n).take m = l.take m := by
    rw [List.take_take]; congr 1; omega
  exact borderLen_iff_suffix.mpr ⟨by omega, htt ▸ hsuf₁.trans hsuf₂⟩

omit [DecidableEq α] in
/-- The shorter of two borders of `l` is a border of the longer one's
prefix. -/
theorem borderLen_take_of_lt {l : List α} {n m : Nat} (hm : BorderLen l m)
    (hn : BorderLen l n) (hmn : m < n) : BorderLen (l.take n) m := by
  have hnl : n < l.length := hn.1
  have hlen : (l.take n).length = n := by simp [List.length_take]; omega
  refine ⟨by omega, ?_⟩
  rw [List.take_take, Nat.min_eq_left (by omega : m ≤ n), hlen, hm.2, hn.2,
      List.drop_drop]
  congr 1
  omega

omit [DecidableEq α] in
/-- Pointwise reading of a border: unit `k` of `l` equals unit
`l.length - m + k`. -/
theorem borderLen_pointwise {l : List α} {m : Nat} (h : BorderLen l m) :
    ∀ k, k < m → l[k]? = l[l.length - m + k]? := by
  intro k hk
  have := congrArg (fun xs => xs[k]?) h.2
  simpa [List.getElem?_take, hk, List.getElem?_drop] using this

omit [DecidableEq α] in
/-- Conversely, pointwise equality of the first `m` units with the last
`m` units makes `m` a border length. -/
theorem borderLen_of_pointwise {l : List α} {m : Nat} (hm : m < l.length)
    (h : ∀ k, k < m → l[k]? = l[l.length - m + k]?) : BorderLen l m := by
  refine ⟨hm, List.ext_getElem? fun k => ?_⟩
  by_cases hk : k < m
  · rw [List.getElem?_take, if_pos hk, List.getElem?_drop]
    exact h k hk
  · rw [List.getElem?_take, if_neg hk, eq_comm, List.getElem?_eq_none]
    simp only [List.length_drop]
    omega

omit [DecidableEq α] in
theorem take_succ_of_snoc {p : List α} {i : Nat} {a : α} (ha : p[i]? = some a) :
    p.take (i + 1) = p.take i ++ [a] := by
  rw [List.take_succ, ha]
  rfl

omit [DecidableEq α] in
theorem getElem?_take_lt {p : List α} {k n : Nat} (h : k < n) :
    (p.take n)[k]? = p[k]? := by
  rw [List.getElem?_take, if_pos h]

/-! ## What one loop iteration of the table builder establishes

The loop invariant of `makePartialMatchTable` keeps, besides the cursor
bounds, three facts: every already-written table entry is the true
longest proper prefix-suffix length, `j` is a border length of the
processed prefix `p.take i`, and every longer border of `p.take i` fails
to extend with `p[i]`.  The next three lemmas are the three ways an
iteration advances this invariant. -/

/-- Successful comparison `p[i] = p[j]`: the longest proper prefix-suffix
length of `p.take (i+1)` is exactly `j + 1`. -/
theorem lps_take_succ_of_match {p : List α} {i j : Nat} (hi : i < p.length) (hji : j < i)
    (hb : BorderLen (p.take i) j)
    (hmax : ∀ m, j < m → BorderLen (p.take i) m → p[m]? ≠ p[i]?)
    (heq : p[j]? = p[i]?) :
    lpsBrute (p.take (i + 1)) = j + 1 := by
  obtain ⟨a, ha⟩ : ∃ a, p[i]? = some a := ⟨p[i], List.getElem?_eq_getElem hi⟩
  have hsnoc : p.take (i + 1) = p.take i ++ [a] := take_succ_of_snoc ha
  have hlt : (p.take (i + 1)).length = i + 1 := by rw [List.length_take]; omega
  have hne : p.take (i + 1) ≠ [] := by
    intro hh
    rw [hh] at hlt
    simp at hlt
  apply lpsBrute_eq_of hne
  · rw [hsnoc]
    refine borderLen_append_singleton.mpr ⟨hb, ?_⟩
    rw [getElem?_take_lt hji, heq, ha]
  · intro n hn
    match n with
    | 0 => omega
    | m + 1 =>
      rw [hsnoc] at hn
      obtain ⟨hbm, hcm⟩ := borderLen_append_singleton.mp hn
      by_contra hgt
      have hmj : j < m := by omega
      have hmi : m < i := by
        have := borderLen_lt hbm
        rw [List.length_take] at this
        omega
      refine hmax m hmj hbm ?_
      rw [getElem?_take_lt hmi] at hcm
      rw [hcm, ha]

/-- Failed comparison with `j = 0`: no border of `p.take i` extends with
`p[i]`, so the longest proper prefix-suffix length of `p.take (i+1)` is
`0`. -/
theorem lps_take_succ_of_mismatch_zero {p : List α} {i : Nat} (hi : i < p.length)
    (hmax : ∀ m, 0 < m → BorderLen (p.take i) m → p[m]? ≠ p[i]?)
    (hne0 : p[0]? ≠ p[i]?) :
    lpsBrute (p.take (i + 1)) = 0 := by
  obtain ⟨a, ha⟩ : ∃ a, p[i]? = some a := ⟨p[i], List.getElem?_eq_getElem hi⟩
  have hsnoc : p.take (i + 1) = p.take i ++ [a] := take_succ_of_snoc ha
  have hlt : (p.take (i + 1)).length = i + 1 := by rw [List.length_take]; omega
  have hne : p.take (i + 1) ≠ [] := by
    intro hh
    rw [hh] at hlt
    simp at hlt
  apply lpsBrute_eq_of hne (borderLen_zero hne)
  intro n hn
  match n with
  | 0 => exact le_refl 0
  | m + 1 =>
    exfalso
    rw [hsnoc] at hn
    obtain ⟨hbm, hcm⟩ := borderLen_append_singleton.mp hn
    have hmi : m < i := by
      have := borderLen_lt hbm
      rw [List.length_take] at this
      omega
    rw [getElem?_take_lt hmi] at hcm
    rcases Nat.eq_zero_or_pos m with h0 | hpos
    · subst h0
      exact hne0 (hcm.trans ha.symm)
    · exact hmax m hpos hbm (hcm.trans ha.symm)

/-- Failed comparison with `j > 0`: falling back to
`j' = lpsBrute (p.take j)` (the value stored in `table[j-1]`) strictly
decreases `j`, keeps `j'` a border length of `p.take i`, and keeps the
property that every longer border of `p.take i` fails to extend. -/
theorem fallback_inv {p : List α} {i j : Nat} (hi : i < p.length) (hji : j < i)
    (hj0 : 0 < j) (hb : BorderLen (p.take i) j)
    (hmax : ∀ m, j < m → BorderLen (p.take i) m → p[m]? ≠ p[i]?)
    (hnej : p[j]? ≠ p[i]?) :
    lpsBrute (p.take j) < j ∧ BorderLen (p.take i) (lpsBrute (p.take j)) ∧
      ∀ m, lpsBrute (p.take j) < m → BorderLen (p.take i) m → p[m]? ≠ p[i]? := by
  have hjlen : (p.take j).length = j := by rw [List.length_take]; omega
  have hjne : p.take j ≠ [] := by
    intro hh
    have : j = 0 := by simpa [hh] using hjlen.symm
    omega
  have hjpj : lpsBrute (p.take j) < j := by
    have := lpsBrute_lt_length hjne
    rwa [hjlen] at this
  have hbjp : BorderLen (p.take j) (lpsBrute (p.take j)) := lpsBrute_borderLen hjne
  have htt : (p.take i).take j = p.take j := by
    rw [List.take_take]
    congr 1
    omega
  have hbig : BorderLen (p.take i) (lpsBrute (p.take j)) :=
    borderLen_of_borderLen_take hb (htt.symm ▸ hbjp)
  refine ⟨hjpj, hbig, ?_⟩
  intro m hm hbm
  rcases lt_trichotomy m j with hlt | heq | hgt
  · exfalso
    have hmem : BorderLen ((p.take i).take j) m := borderLen_take_of_lt hbm hb hlt
    rw [htt] at hmem
    have := le_lpsBrute hmem
    omega
  · exact heq ▸ hnej
  · exact hmax m hgt hbm

/-! ## The table builder's loop invariant -/

theorem buildInv_init {p : List α} (hp : p ≠ []) : BuildInv p (buildInit p) := by
  have hL : 1 ≤ p.length := List.length_pos.mpr hp
  have h1len : (p.take 1).length = 1 := by rw [List.length_take]; omega
  have h1ne : p.take 1 ≠ [] := by
    intro hh
    rw [hh] at h1len
    simp at h1len
  unfold BuildInv buildInit
  dsimp only
  refine ⟨by simp, le_refl 1, hL, Nat.zero_lt_one, ?_, ?_, ?_⟩
  · intro k hk
    have hk0 : k = 0 := by omega
    subst hk0
    have hlps : lpsBrute (p.take 1) = 0 := by
      have := lpsBrute_lt_length h1ne
      rw [h1len] at this
      omega
    simp [List.getElem?_replicate, (by omega : 0 < p.length), hlps]
  · exact borderLen_zero h1ne
  · intro m hm hbm
    exfalso
    have := borderLen_lt hbm
    rw [h1len] at this
    omega

/-- One iteration of the builder's loop preserves the invariant and
strictly increases the measure `2 * i - j`. -/
theorem buildStep_inv {p : List α} {s : BuildState} (h : BuildInv p s)
    (hi : s.i < p.length) :
    BuildInv p (buildStep p s) ∧
      2 * s.i - s.j + 1 ≤ 2 * (buildStep p s).i - (buildStep p s).j := by
  obtain ⟨hlen, hi1, hiL, hji, htab, hb, hmax⟩ := h
  obtain ⟨a, ha⟩ : ∃ a, p[s.i]? = some a := ⟨p[s.i], List.getElem?_eq_getElem hi⟩
  have hlts : (p.take (s.i + 1)).length = s.i + 1 := by rw [List.length_take]; omega
  have hnes : p.take (s.i + 1) ≠ [] := by
    intro hh
    rw [hh] at hlts
    simp at hlts
  unfold buildStep BuildInv
  by_cases hcmp : p[s.i]? ≠ p[s.j]?
  · rw [if_pos hcmp]
    by_cases hj0 : s.j = 0
    · rw [if_pos hj0]
      dsimp only
      have hlps : lpsBrute (p.take (s.i + 1)) = 0 := by
        refine lps_take_succ_of_mismatch_zero hi ?_ ?_
        · intro m hm hbm
          exact hmax m (by omega) hbm
        · rw [← hj0]
          exact fun hh => hcmp hh.symm
      refine ⟨⟨by simp [List.length_set, hlen], by omega, by omega, by omega, ?_, ?_, ?_⟩,
        by omega⟩
      · intro k hk
        rw [List.getElem?_set]
        by_cases hki : s.i = k
        · subst hki
          rw [if_pos rfl, if_pos (by omega : s.i < s.table.length)]
          simp [hlps]
        · rw [if_neg hki]
          exact htab k (by omega)
      · rw [hj0]
        exact borderLen_zero hnes
      · intro m hm hbm
        exfalso
        have := le_lpsBrute hbm
        rw [hlps] at this
        omega
    · rw [if_neg hj0]
      dsimp only
      have hj0' : 0 < s.j := Nat.pos_of_ne_zero hj0
      have htj : (s.table[s.j - 1]?).getD 0 = lpsBrute (p.take s.j) := by
        have := htab (s.j - 1) (by omega)
        rwa [show s.j - 1 + 1 = s.j from by omega] at this
      obtain ⟨hlt, hbig, hmax'⟩ :=
        fallback_inv hi hji hj0' hb hmax (fun hh => hcmp hh.symm)
      rw [htj]
      exact ⟨⟨hlen, hi1, hiL, by omega, htab, hbig, hmax'⟩, by omega⟩
  · rw [if_neg hcmp]
    dsimp only
    have heq : p[s.i]? = p[s.j]? := not_not.mp hcmp
    have hlps : lpsBrute (p.take (s.i + 1)) = s.j + 1 :=
      lps_take_succ_of_match hi hji hb hmax heq.symm
    refine ⟨⟨by simp [List.length_set, hlen], by omega, by omega, by omega, ?_, ?_, ?_⟩,
      by omega⟩
    · intro k hk
      rw [List.getElem?_set]
      by_cases hki : s.i = k
      · subst hki
        rw [if_pos rfl, if_pos (by omega : s.i < s.table.length)]
        simp [hlps]
      · rw [if_neg hki]
        exact htab k (by omega)
    · have := lpsBrute_borderLen hnes
      rwa [hlps] at this
    · intro m hm hbm
      exfalso
      have := le_lpsBrute hbm
      rw [hlps] at this
      omega

/-- Running the builder's loop with enough fuel preserves the invariant
and exits the loop (`i` reaches the pattern length).  The measure
`2 * i - j` grows by at least one per iteration and is bounded by
`2 * p.length`. -/
theorem buildRun_good {p : List α} : ∀ fuel (s : BuildState), BuildInv p s →
    2 * p.length ≤ 2 * s.i - s.j + fuel →
    BuildInv p (buildRun p fuel s) ∧ p.length ≤ (buildRun p fuel s).i := by
  intro fuel
  induction fuel with
  | zero =>
    intro s hs hf
    have h1 : buildRun p 0 s = s := rfl
    rw [h1]
    have hji := hs.2.2.2.1
    have hiL := hs.2.2.1
    exact ⟨hs, by omega⟩
  | succ fuel ih =>
    intro s hs hf
    simp only [buildRun]
    by_cases hi : s.i < p.length
    · rw [if_pos hi]
      obtain ⟨hinv', hmeas⟩ := buildStep_inv hs hi
      exact ih (buildStep p s) hinv' (by omega)
    · rw [if_neg hi]
      exact ⟨hs, by omega⟩

/-- Summary of the builder's correctness: the table has the pattern's
length and each entry is the brute-force longest proper prefix-suffix
length of the corresponding pattern prefix. -/
theorem makePartialMatchTable_correct {p : List α} :
    (makePartialMatchTable p).length = p.length ∧
    ∀ k, k < p.length →
      ((makePartialMatchTable p)[k]?).getD 0 = lpsBrute (p.take (k + 1)) := by
  by_cases hp : p = []
  · subst hp
    exact ⟨rfl, by intro k hk; simp at hk⟩
  · obtain ⟨hinv, hterm⟩ :=
      buildRun_good (2 * p.length) (buildInit p) (buildInv_init hp)
        (by dsimp [buildInit]; omega)
    obtain ⟨hlen, hi1, hiL, hji, htab, hbor, hmx⟩ := hinv
    exact ⟨hlen, fun k hk => htab k (by omega)⟩

theorem table_length (p : List α) : (makePartialMatchTable p).length = p.length :=
  makePartialMatchTable_correct.1

theorem table_correct {p : List α} {k : Nat} (hk : k < p.length) :
    ((makePartialMatchTable p)[k]?).getD 0 = lpsBrute (p.take (k + 1)) :=
  makePartialMatchTable_correct.2 k hk

theorem table_le {p : List α} {k : Nat} (hk : k < p.length) :
    ((makePartialMatchTable p)[k]?).getD 0 ≤ k := by
  rw [table_correct hk]
  have hlen : (p.take (k + 1)).length = k + 1 := by rw [List.length_take]; omega
  have hne : p.take (k + 1) ≠ [] := by
    intro hh
    rw [hh] at hlen
    simp at hlen
  have := lpsBrute_lt_length hne
  rw [hlen] at this
  omega

/-- Once the builder's loop guard fails, further fuel changes nothing. -/
theorem buildRun_terminal {p : List α} {s : BuildState} (h : ¬ s.i < p.length) :
    ∀ fuel, buildRun p fuel s = s := by
  intro fuel
  cases fuel with
  | zero => rfl
  | succ n =>
    simp only [buildRun]
    rw [if_neg h]

/-- Splitting the fuel of the builder's runner. -/
theorem buildRun_add {p : List α} : ∀ f g (s : BuildState),
    buildRun p (f + g) s = buildRun p g (buildRun p f s) := by
  intro f
  induction f with
  | zero =>
    intro g s
    rw [Nat.zero_add]
    rfl
  | succ f ih =>
    intro g s
    rw [show f + 1 + g = (f + g) + 1 from by omega]
    simp only [buildRun]
    by_cases hi : s.i < p.length
    · rw [if_pos hi, if_pos hi]
      exact ih g (buildStep p s)
    · rw [if_neg hi, if_neg hi]
      exact (buildRun_terminal hi g).symm

/-- The builder's loop terminates: with fuel `2 * p.length` the cursor
`i` has reached the pattern length, and any extra fuel leaves the result
unchanged. -/
theorem build_terminates (p : List α) :
    p.length ≤ (buildRun p (2 * p.length) (buildInit p)).i ∧
    ∀ extra, buildRun p (2 * p.length + extra) (buildInit p) =
      buildRun p (2 * p.length) (buildInit p) := by
  by_cases hp : p = []
  · subst hp
    have hterm : ¬ (buildInit ([] : List α)).i < ([] : List α).length := by
      dsimp [buildInit]
      omega
    refine ⟨Nat.zero_le _, fun extra => ?_⟩
    rw [buildRun_terminal hterm, buildRun_terminal hterm]
  · obtain ⟨hinv, hterm⟩ :=
      buildRun_good (2 * p.length) (buildInit p) (buildInv_init hp)
        (by dsimp [buildInit]; omega)
    refine ⟨hterm, fun extra => ?_⟩
    rw [buildRun_add]
    exact buildRun_terminal (by omega) extra

/-! ## The scanner's loop invariant -/

omit [DecidableEq α] in
/-- Occurrence of `p` at position `r` of `t`, read pointwise. -/
theorem isPrefix_drop_iff {t p : List α} {r : Nat} :
    p <+: t.drop r ↔ ∀ k, k < p.length → t[r + k]? = p[k]? := by
  constructor
  · rintro ⟨u, hu⟩
    intro k hk
    rw [← List.getElem?_drop, ← hu, List.getElem?_append, if_pos hk]
  · intro h
    rw [List.prefix_iff_eq_take]
    apply List.ext_getElem?
    intro k
    by_cases hk : k < p.length
    · rw [List.getElem?_take, if_pos hk, List.getElem?_drop]
      exact (h k hk).symm
    · rw [List.getElem?_eq_none (by omega), List.getElem?_take, if_neg hk]

omit [DecidableEq α] in
/-- A successful comparison extends the partial-match invariant by one
unit. -/
theorem pointwise_match {t p : List α} {i j : Nat} (hji : j ≤ i)
    (hpm : ∀ k, k < j → t[i - j + k]? = p[k]?) (hcmp : t[i]? = p[j]?) :
    ∀ k, k < j + 1 → t[i + 1 - (j + 1) + k]? = p[k]? := by
  intro k hk
  rw [show i + 1 - (j + 1) + k = i - j + k from by omega]
  rcases Nat.lt_or_ge k j with hlt | hge
  · exact hpm k hlt
  · have hkj : k = j := by omega
    rw [hkj, show i - j + j = i from by omega]
    exact hcmp

/-- Falling back to `j' = lpsBrute (p.take j)` keeps the partial-match
invariant: the last `j'` text units before `i` still match `p.take j'`. -/
theorem pointwise_fallback {t p : List α} {i j : Nat} (hji : j ≤ i)
    (hjp : j ≤ p.length) (hj0 : 0 < j)
    (hpm : ∀ k, k < j → t[i - j + k]? = p[k]?) :
    ∀ k, k < lpsBrute (p.take j) → t[i - lpsBrute (p.take j) + k]? = p[k]? := by
  have hjlen : (p.take j).length = j := by rw [List.length_take]; omega
  have hjne : p.take j ≠ [] := by
    intro hh
    rw [hh] at hjlen
    simp at hjlen
    omega
  intro k hk
  have hb : BorderLen (p.take j) (lpsBrute (p.take j)) := lpsBrute_borderLen hjne
  have hql : lpsBrute (p.take j) < j := by
    have := lpsBrute_lt_length hjne
    rwa [hjlen] at this
  have hpt := borderLen_pointwise hb k hk
  rw [hjlen] at hpt
  have h1 : (p.take j)[k]? = p[k]? := getElem?_take_lt (by omega)
  have h2 : (p.take j)[j - lpsBrute (p.take j) + k]? = p[j - lpsBrute (p.take j) + k]? :=
    getElem?_take_lt (by omega)
  rw [h1, h2] at hpt
  have h3 := hpm (j - lpsBrute (p.take j) + k) (by omega)
  rw [show i - j + (j - lpsBrute (p.take j) + k) = i - lpsBrute (p.take j) + k
      from by omega] at h3
  exact h3.trans hpt.symm

/-- Falling back to `j' = lpsBrute (p.take j)` rules out every occurrence
of `p` starting before `i - j'`: starts before `i - j` were ruled out
already, a start at `i - j` contradicts the current mismatch, and a start
strictly between would yield a border of `p.take j` longer than its
longest proper prefix-suffix. -/
theorem noEarlier_fallback {t p : List α} {i j : Nat} (hji : j ≤ i)
    (hjp : j < p.length) (hj0 : 0 < j)
    (hpm : ∀ k, k < j → t[i - j + k]? = p[k]?)
    (hne : t[i]? ≠ p[j]?)
    (hnoe : ∀ r, r + j < i → ¬ p <+: t.drop r) :
    ∀ r, r + lpsBrute (p.take j) < i → ¬ p <+: t.drop r := by
  have hjlen : (p.take j).length = j := by rw [List.length_take]; omega
  have hjne : p.take j ≠ [] := by
    intro hh
    rw [hh] at hjlen
    simp at hjlen
    omega
  have hql : lpsBrute (p.take j) < j := by
    have := lpsBrute_lt_length hjne
    rwa [hjlen] at this
  intro r hr hocc
  by_cases hcase : r + j < i
  · exact hnoe r hcase hocc
  · have hoccP := isPrefix_drop_iff.mp hocc
    have hri : r < i := by omega
    by_cases hmj : i - r = j
    · have hj := hoccP j hjp
      rw [show r + j = i from by omega] at hj
      exact hne hj
    · have hm2 : i - r < j := by omega
      have hbm : BorderLen (p.take j) (i - r) := by
        apply borderLen_of_pointwise (by rw [hjlen]; omega)
        intro k hk
        rw [hjlen]
        have e1 : (p.take j)[k]? = p[k]? := getElem?_take_lt (by omega)
        have e2 : (p.take j)[j - (i - r) + k]? = p[j - (i - r) + k]? :=
          getElem?_take_lt (by omega)
        rw [e1, e2]
        have o1 := hoccP k (by omega)
        have o2 := hpm (j - (i - r) + k) (by omega)
        rw [show i - j + (j - (i - r) + k) = r + k from by omega] at o2
        rw [← o1, ← o2]
      have := le_lpsBrute hbm
      omega

/-- Running the scanner with enough fuel reaches a loop-exit state that
satisfies the invariant. -/
theorem findRun_exit {t p : List α} {tbl : List Nat}
    (htbl : ∀ k, k < p.length → (tbl[k]?).getD 0 = lpsBrute (p.take (k + 1))) :
    ∀ fuel (s : FindState), FindInv t p s → 2 * t.length < 2 * s.i - s.j + fuel →
    FindExit t p (findRun t p tbl fuel s) := by
  intro fuel
  induction fuel with
  | zero =>
    intro s hs hf
    obtain ⟨hji, hiT, hjp, hpm, hnoe⟩ := hs
    exact absurd hf (by omega)
  | succ fuel ih =>
    intro s hs hf
    obtain ⟨hji, hiT, hjp, hpm, hnoe⟩ := hs
    simp only [findRun]
    by_cases hi : s.i < t.length
    · rw [if_pos hi]
      by_cases hcmp : t[s.i]? = p[s.j]?
      · rw [if_pos hcmp]
        by_cases hbreak : s.j + 1 = p.length
        · rw [if_pos hbreak]
          refine ⟨by dsimp only; omega, by dsimp only; omega, by dsimp only; omega,
            ?_, ?_, by dsimp only; omega⟩
          · dsimp only
            exact pointwise_match hji hpm hcmp
          · dsimp only
            intro r hr
            exact hnoe r (by omega)
        · rw [if_neg hbreak]
          refine ih ⟨s.i + 1, s.j + 1⟩
            ⟨by dsimp only; omega, by dsimp only; omega, by dsimp only; omega, ?_, ?_⟩
            (by dsimp only; omega)
          · dsimp only
            exact pointwise_match hji hpm hcmp
          · dsimp only
            intro r hr
            exact hnoe r (by omega)
      · rw [if_neg hcmp]
        by_cases hj0 : 0 < s.j
        · rw [if_pos hj0]
          have htj : (tbl[s.j - 1]?).getD 0 = lpsBrute (p.take s.j) := by
            have := htbl (s.j - 1) (by omega)
            rwa [show s.j - 1 + 1 = s.j from by omega] at this
          rw [htj]
          have hjlen : (p.take s.j).length = s.j := by rw [List.length_take]; omega
          have hjne : p.take s.j ≠ [] := by
            intro hh
            rw [hh] at hjlen
            simp at hjlen
            omega
          have hql : lpsBrute (p.take s.j) < s.j := by
            have := lpsBrute_lt_length hjne
            rwa [hjlen] at this
          refine ih ⟨s.i, lpsBrute (p.take s.j)⟩
            ⟨by dsimp only; omega, by dsimp only; omega, by dsimp only; omega, ?_, ?_⟩
            (by dsimp only; omega)
          · dsimp only
            exact pointwise_fallback hji (by omega) hj0 hpm
          · dsimp only
            exact noEarlier_fallback hji hjp hj0 hpm hcmp hnoe
        · rw [if_neg hj0]
          have hj00 : s.j = 0 := by omega
          refine ih ⟨s.i + 1, s.j⟩
            ⟨by dsimp only; omega, by dsimp only; omega, by dsimp only; omega, ?_, ?_⟩
            (by dsimp only; omega)
          · dsimp only
            intro k hk
            exact absurd hk (by omega)
          · dsimp only
            intro r hr hocc
            rcases Nat.lt_or_ge (r + s.j) s.i with hlt | hge
            · exact hnoe r hlt hocc
            · have hri : r = s.i := by omega
              subst hri
              have h0 := isPrefix_drop_iff.mp hocc 0 (by omega)
              rw [Nat.add_zero] at h0
              rw [hj00] at hcmp
              exact hcmp h0
    · rw [if_neg hi]
      exact ⟨hji, hiT, by omega, hpm, hnoe, by omega⟩

/-- Soundness of a non-negative result of the scanner: the keyword
occurs at the returned index and at no earlier index. -/
theorem find_first_match {t p : List α} {r : Nat} (hp : p ≠ [])
    (h : find t p = (r : Int)) :
    p <+: t.drop r ∧ ∀ q, q < r → ¬ p <+: t.drop q := by
  have hplen : 0 < p.length := List.length_pos.mpr hp
  have htbl : ∀ k, k < p.length →
      ((makePartialMatchTable p)[k]?).getD 0 = lpsBrute (p.take (k + 1)) :=
    fun k hk => table_correct hk
  have hinv0 : FindInv t p ⟨0, 0⟩ :=
    ⟨le_refl 0, Nat.zero_le _, hplen,
      fun k hk => absurd hk (show ¬ k < 0 from by omega),
      fun q hq => absurd hq (show ¬ q + 0 < 0 from by omega)⟩
  have hexit := findRun_exit htbl (2 * t.length + 1) ⟨0, 0⟩ hinv0 (by omega)
  unfold find findFinal at h
  set sf := findRun t p (makePartialMatchTable p) (2 * t.length + 1) ⟨0, 0⟩ with hsf
  obtain ⟨hji, hiT, hjp, hpm, hnoe, hex⟩ := hexit
  by_cases hieq : sf.i = t.length
  · rw [if_pos hieq] at h
    exfalso
    omega
  · rw [if_neg hieq] at h
    have hjem : sf.j = p.length := by
      rcases hex with hle | hj
      · exact absurd (le_antisymm hiT hle) hieq
      · exact hj
    have hri : sf.i = r + p.length := by omega
    constructor
    · rw [isPrefix_drop_iff]
      intro k hk
      have hh := hpm k (by omega)
      rwa [hjem, show sf.i - p.length = r from by omega] at hh
    · intro q hq
      apply hnoe
      omega

/-- With an empty keyword the scanner never matches: each comparison is
`some (t[i]) = none`, so the loop just advances `i` to the end of the
text. -/
theorem findRun_nil {t : List α} {tbl : List Nat} : ∀ fuel i, t.length ≤ i + fuel →
    i ≤ t.length → findRun t ([] : List α) tbl fuel ⟨i, 0⟩ = ⟨t.length, 0⟩ := by
  intro fuel
  induction fuel with
  | zero =>
    intro i h1 h2
    have h3 : i = t.length := by omega
    rw [h3]
    rfl
  | succ fuel ih =>
    intro i h1 h2
    simp only [findRun]
    by_cases hi : i < t.length
    · rw [if_pos hi]
      have hcmp : ¬ (t[i]? = ([] : List α)[0]?) := by
        simp [List.getElem?_eq_getElem hi]
      rw [if_neg hcmp, if_neg (by omega : ¬ (0 : Nat) < 0)]
      exact ih (i + 1) (by omega) (by omega)
    · rw [if_neg hi]
      have h3 : i = t.length := by omega
      rw [h3]

/-- `find` with an empty keyword returns `-1` on every text. -/
theorem find_nil (t : List α) : find t ([] : List α) = -1 := by
  unfold find
  rw [show makePartialMatchTable ([] : List α) = [] from rfl,
      findRun_nil (2 * t.length + 1) 0 (by omega) (by omega)]
  unfold findFinal
  rw [if_pos rfl]

/-! ## The bounds-checked embedding agrees with the unchecked one -/

/-- On invariant states the bounds-checked builder step takes no
out-of-bounds branch. -/
theorem buildStepChecked_eq {p : List α} {s : BuildState} (h : BuildInv p s)
    (hi : s.i < p.length) : buildStepChecked p s = some (buildStep p s) := by
  obtain ⟨hlen, hi1, hiL, hji, htab, hb, hmax⟩ := h
  have hjlt : s.j < p.length := by omega
  have hai : p[s.i]? = some p[s.i] := List.getElem?_eq_getElem hi
  have haj : p[s.j]? = some p[s.j] := List.getElem?_eq_getElem hjlt
  unfold buildStepChecked buildStep
  rw [hai, haj]
  by_cases hab : p[s.i] = p[s.j]
  · simp [hab]
  · by_cases hj0 : s.j = 0
    · simp [hab, hj0]
      split <;> rfl
    · have hjt : s.j - 1 < s.table.length := by omega
      have ht : s.table[s.j - 1]? = some s.table[s.j - 1] := List.getElem?_eq_getElem hjt
      simp [hab, hj0, ht]

/-- On invariant states the bounds-checked builder run never fails. -/
theorem buildRunChecked_eq {p : List α} : ∀ fuel (s : BuildState), BuildInv p s →
    buildRunChecked p fuel s = some (buildRun p fuel s) := by
  intro fuel
  induction fuel with
  | zero =>
    intro s hs
    rfl
  | succ fuel ih =>
    intro s hs
    simp only [buildRunChecked, buildRun]
    by_cases hi : s.i < p.length
    · rw [if_pos hi, if_pos hi, buildStepChecked_eq hs hi]
      exact ih (buildStep p s) (buildStep_inv hs hi).1
    · rw [if_neg hi, if_neg hi]

/-- For a non-empty pattern, building the table with bounds-checked
accesses succeeds and agrees with the unchecked builder. -/
theorem makePartialMatchTableChecked_eq {p : List α} (hp : p ≠ []) :
    makePartialMatchTableChecked p = some (makePartialMatchTable p) := by
  unfold makePartialMatchTableChecked makePartialMatchTable
  rw [buildRunChecked_eq (2 * p.length) (buildInit p) (buildInv_init hp)]
  rfl

/-- As long as `j` stays below the keyword length, the bounds-checked
scanner run never fails and agrees with the unchecked one. -/
theorem findRunChecked_eq {t p : List α} :
    ∀ fuel (s : FindState), s.j < p.length →
    findRunChecked t p (makePartialMatchTable p) fuel s =
      some (findRun t p (makePartialMatchTable p) fuel s) := by
  intro fuel
  induction fuel with
  | zero =>
    intro s hs
    rfl
  | succ fuel ih =>
    intro s hs
    simp only [findRunChecked, findRun]
    by_cases hi : s.i < t.length
    · rw [if_pos hi, if_pos hi]
      have hti : t[s.i]? = some t[s.i] := List.getElem?_eq_getElem hi
      have hpj : p[s.j]? = some p[s.j] := List.getElem?_eq_getElem hs
      rw [hti, hpj]
      dsimp only
      by_cases hab : t[s.i] = p[s.j]
      · rw [if_pos hab, if_pos (show some t[s.i] = some p[s.j] from by rw [hab])]
        by_cases hbrk : s.j + 1 = p.length
        · rw [if_pos hbrk, if_pos hbrk]
        · rw [if_neg hbrk, if_neg hbrk]
          exact ih ⟨s.i + 1, s.j + 1⟩ (by dsimp only; omega)
      · rw [if_neg hab, if_neg (show ¬ some t[s.i] = some p[s.j] from by simp [hab])]
        by_cases hj0 : 0 < s.j
        · rw [if_pos hj0, if_pos hj0]
          have hjt : s.j - 1 < (makePartialMatchTable p).length := by
            rw [table_length]
            omega
          have ht : (makePartialMatchTable p)[s.j - 1]? =
              some (makePartialMatchTable p)[s.j - 1] := List.getElem?_eq_getElem hjt
          rw [ht]
          dsimp only
          have hv := table_le (show s.j - 1 < p.length from by omega)
          rw [ht] at hv
          simp only [Option.getD_some] at hv
          exact ih ⟨s.i, (makePartialMatchTable p)[s.j - 1]⟩ (by dsimp only; omega)
        · rw [if_neg hj0, if_neg hj0]
          exact ih ⟨s.i + 1, s.j⟩ (by dsimp only; omega)
    · rw [if_neg hi, if_neg hi]

/-- For a non-empty pattern, `find` with bounds-checked accesses succeeds
and agrees with the unchecked `find`. -/
theorem findChecked_eq {t p : List α} (hp : p ≠ []) :
    findChecked t p = some (find t p) := by
  have hplen : 0 < p.length := List.length_pos.mpr hp
  unfold findChecked find
  rw [makePartialMatchTableChecked_eq hp]
  dsimp only
  rw [findRunChecked_eq (2 * t.length + 1) ⟨0, 0⟩ hplen]

/-- `stringToChars` returns exactly the list of Unicode code points of
the string. -/
theorem stringToChars_eq_data (s : String) : stringToChars s = s.data := by
  unfold stringToChars
  suffices h : ∀ (l acc : List Char), l.foldl (fun acc c => acc ++ [c]) acc = acc ++ l by
    rw [h s.data []]
    rfl
  intro l
  induction l with
  | nil => intro acc; simp
  | cons c cs ih =>
    intro acc
    rw [List.foldl_cons, ih (acc ++ [c])]
    simp

/-! ## The claims -/

/-- C1: the claim says `find` agrees with a naive brute-force substring
search on every input.  The code violates this whenever the first match
ends exactly at the last unit of the text: on text `"ab"` and pattern
`"ab"` the scan finds the match but the return expression
`(i === testLength) ? -1 : (i - keywordLength)` reports `-1`, while the
brute-force search returns `0`. -/
theorem find_disagrees_with_naive_at_text_end :
    find (stringToChars "ab") (stringToChars "ab") = -1 ∧
    naiveFind (stringToChars "ab") (stringToChars "ab") = 0 := by
  decide

/-- C2: the claim says that whenever the scanner's loop exits because `j`
reached the pattern length, `find` returns `i - patternLength`, also when
the match ends at the last unit of the text.  The code violates the
last-unit case: on text `"ab"` and pattern `"ab"` the loop exits by the
`break` in state `i = 2, j = 2` (so `j` reached the pattern length and
the claimed result is `i - patternLength = 0`), yet `find` returns `-1`
because the final check `i === testLength` cannot tell this exit from an
exhausted text. -/
theorem find_break_at_text_end_returns_minus_one :
    findRun (stringToChars "ab") (stringToChars "ab")
        (makePartialMatchTable (stringToChars "ab"))
        (2 * (stringToChars "ab").length + 1) ⟨0, 0⟩ = ⟨2, 2⟩ ∧
    (stringToChars "ab").length = 2 ∧
    find (stringToChars "ab") (stringToChars "ab") = -1 ∧
    (-1 : Int) ≠ (2 : Int) - (2 : Int) := by
  decide

/-- C3: every entry of `makePartialMatchTable P` is the length of the
longest proper prefix of `P[0..=k]` that is also a proper suffix of it,
as computed by the brute-force reference `lpsBrute`. -/
theorem makePartialMatchTable_entry_eq_lpsBrute (p : List α) (k : Nat)
    (hk : k < p.length) :
    ((makePartialMatchTable p)[k]?).getD 0 = lpsBrute (p.take (k + 1)) :=
  table_correct hk

theorem makePartialMatchTable_entry_eq_lpsBrute_witness :
    4 < (stringToChars "abaab").length ∧
    ((makePartialMatchTable (stringToChars "abaab"))[4]?).getD 0 =
      lpsBrute ((stringToChars "abaab").take (4 + 1)) :=
  ⟨by decide,
    makePartialMatchTable_entry_eq_lpsBrute (stringToChars "abaab") 4 (by decide)⟩

/-- C4: the table has the same length as the pattern, a non-empty
pattern's entry at index `0` is `0`, and every entry `table[k]` satisfies
`0 ≤ table[k] ≤ k` (the entries are natural numbers, so the lower bound
is inherent). -/
theorem makePartialMatchTable_length_and_bounds (p : List α) :
    (makePartialMatchTable p).length = p.length ∧
    (p ≠ [] → ((makePartialMatchTable p)[0]?).getD 0 = 0) ∧
    ∀ k, k < p.length → ((makePartialMatchTable p)[k]?).getD 0 ≤ k := by
  refine ⟨table_length p, ?_, fun k hk => table_le hk⟩
  intro hp
  have h0 : 0 < p.length := List.length_pos.mpr hp
  have := table_le h0
  omega

theorem makePartialMatchTable_length_and_bounds_witness :
    stringToChars "aaaab" ≠ [] ∧
    (makePartialMatchTable (stringToChars "aaaab")).length =
      (stringToChars "aaaab").length ∧
    ((makePartialMatchTable (stringToChars "aaaab"))[0]?).getD 0 = 0 ∧
    ((makePartialMatchTable (stringToChars "aaaab"))[3]?).getD 0 ≤ 3 :=
  ⟨by decide,
    (makePartialMatchTable_length_and_bounds (stringToChars "aaaab")).1,
    (makePartialMatchTable_length_and_bounds (stringToChars "aaaab")).2.1 (by decide),
    (makePartialMatchTable_length_and_bounds (stringToChars "aaaab")).2.2 3 (by decide)⟩

/-- C5: the five concrete tables from the specification, computed by the
embedded `makePartialMatchTable`. -/
theorem makePartialMatchTable_concrete_tables :
    makePartialMatchTable (stringToChars "abaab") = [0, 0, 1, 1, 2] ∧
    makePartialMatchTable (stringToChars "aaaab") = [0, 1, 2, 3, 0] ∧
    makePartialMatchTable (stringToChars "aabaaa") = [0, 1, 0, 1, 2, 2] ∧
    makePartialMatchTable (stringToChars "abcdabd") = [0, 0, 0, 0, 1, 2, 0] ∧
    makePartialMatchTable (stringToChars "hello world") =
      [0, 0, 0, 0, 0, 0, 0, 0, 0, 0, 0] := by
  decide

/-- C6: the builder's loop terminates on every finite pattern: within
`2 * length` iterations the cursor `i` reaches the pattern length, and
giving the loop any extra fuel leaves the outcome unchanged (the loop
has exited and cannot run forever). -/
theorem makePartialMatchTable_terminates (p : List α) :
    p.length ≤ (buildRun p (2 * p.length) (buildInit p)).i ∧
    ∀ extra, buildRun p (2 * p.length + extra) (buildInit p) =
      buildRun p (2 * p.length) (buildInit p) :=
  build_terminates p

/-- C7: with the empty pattern, the table is empty, the scan never
reports a match, and `find` returns the NOT_FOUND sentinel `-1` as an
ordinary value for every text. -/
theorem find_empty_keyword_returns_minus_one :
    makePartialMatchTable ([] : List Char) = [] ∧
    ∀ t : String, findStr t "" = -1 := by
  refine ⟨rfl, fun t => ?_⟩
  show find (stringToChars t) (stringToChars "") = -1
  rw [show stringToChars "" = [] from rfl]
  exact find_nil _

/-- C8: `stringToChars` yields one unit per Unicode code point (the list
`String.data`), `find` converts both text and pattern with it, and on a
pattern of two-code-unit characters the table and the match position are
measured in whole characters: `"😀a😀"` has UTF-16 length `5` but `3`
units, its table is `[0, 0, 1]`, and the match of `"😀a😀"` inside
`"b😀a😀b"` is reported at character index `1`. -/
theorem stringToChars_codePoints_and_find_conversion :
    (∀ s : String, stringToChars s = s.data) ∧
    (∀ t p : String, findStr t p = find (stringToChars t) (stringToChars p)) ∧
    stringToChars "😀a😀" = ['😀', 'a', '😀'] ∧
    (stringToChars "😀a😀").length = 3 ∧
    utf16Length "😀a😀" = 5 ∧
    makePartialMatchTable (stringToChars "😀a😀") = [0, 0, 1] ∧
    find (stringToChars "b😀a😀b") (stringToChars "😀a😀") = 1 :=
  ⟨stringToChars_eq_data, fun t p => rfl, by decide, by decide, by decide,
    by decide, by decide⟩

/-- C9: positive results of `find` are sound: for a non-empty pattern, if
`find` returns a non-negative index `r`, then the pattern occurs in the
text at `r` and at no smaller index. -/
theorem find_returns_first_occurrence (t p : List α) (r : Nat) (hp : p ≠ [])
    (h : find t p = (r : Int)) :
    p <+: t.drop r ∧ ∀ q, q < r → ¬ p <+: t.drop q :=
  find_first_match hp h

theorem find_returns_first_occurrence_witness :
    (stringToChars "ab" ≠ [] ∧
      find (stringToChars "xabab") (stringToChars "ab") = ((1 : Nat) : Int)) ∧
    (stringToChars "ab" <+: (stringToChars "xabab").drop 1 ∧
      ∀ q, q < 1 → ¬ stringToChars "ab" <+: (stringToChars "xabab").drop q) :=
  ⟨⟨by decide, by decide⟩,
    find_returns_first_occurrence (stringToChars "xabab") (stringToChars "ab") 1
      (by decide) (by decide)⟩

/-- C10: for every text and non-empty pattern, the bounds-checked
embedding (which returns `none` as soon as any sequence access of the
builder or the scanner is out of bounds) succeeds and agrees with the
unchecked embedding: the out-of-bounds branch is unreachable. -/
theorem checked_accesses_in_bounds (t p : List α) (hp : p ≠ []) :
    makePartialMatchTableChecked p = some (makePartialMatchTable p) ∧
    findChecked t p = some (find t p) :=
  ⟨makePartialMatchTableChecked_eq hp, findChecked_eq hp⟩

theorem checked_accesses_in_bounds_witness :
    stringToChars "ab" ≠ [] ∧
    makePartialMatchTableChecked (stringToChars "ab") =
      some (makePartialMatchTable (stringToChars "ab")) ∧
    findChecked (stringToChars "aab") (stringToChars "ab") =
      some (find (stringToChars "aab") (stringToChars "ab")) :=
  ⟨by decide,
    (checked_accesses_in_bounds (stringToChars "aab") (stringToChars "ab")
      (by decide)).1,
    (checked_accesses_in_bounds (stringToChars "aab") (stringToChars "ab")
      (by decide)).2⟩

end KMP
